import Mathlib

/-!
Verification of the Edit-Proposal Pipeline of the google-drive-webapp
repository against its specification.

The TypeScript sources are shallowly embedded: JavaScript strings are
modelled as `List Char`, absent (`undefined`) fields as `Option`, and the
host `JSON.parse` as an explicit `parses` predicate parameter (the repair
engine only ever asks whether a parse attempt succeeds).
-/

namespace GDrive

/-- The structural character LEFT BRACE counted by the bracket-balancing step
of `fixCommonJsonIssues` (written via its code point to keep string
scanning explicit). -/
def openBraceChar : Char := Char.ofNat 123

/-- The structural character RIGHT BRACE. -/
def closeBraceChar : Char := Char.ofNat 125

/-- The structural character LEFT SQUARE BRACKET. -/
def openBracketChar : Char := Char.ofNat 91

/-- The structural character RIGHT SQUARE BRACKET. -/
def closeBracketChar : Char := Char.ofNat 93

/-- Whitespace as matched by JavaScript's `\s` class and
`String.prototype.trim` (restricted to the code points that occur in the
ASCII-oriented strings this code base manipulates, plus NBSP and BOM). -/
def isJsWhitespace (c : Char) : Bool :=
  c = ' ' || c = '\t' || c = '\n' || c = '\r' ||
  c = Char.ofNat 11 || c = Char.ofNat 12 || c = Char.ofNat 160 || c = Char.ofNat 65279

/-- JavaScript `String.prototype.trim`. -/
def jsTrim (s : List Char) : List Char :=
  ((s.dropWhile isJsWhitespace).reverse.dropWhile isJsWhitespace).reverse

/-- Fix 1 of `fixCommonJsonIssues` (functions/src/index.ts): the character
walk that escapes literal newlines, carriage returns and tabs occurring
inside string literals.  State is the `inString` flag and the count of
consecutive backslashes just before the cursor; a quote toggles `inString`
only when preceded by an even number of backslashes.  Returns the rewritten
buffer together with the final `inString` flag. -/
def escapeScan : List Char → Bool → Nat → List Char × Bool
  | [], inString, _ => ([], inString)
  | c :: rest, inString, backslashCount =>
    if c = '\\' then
      let r := escapeScan rest inString (backslashCount + 1)
      (c :: r.1, r.2)
    else if c = '"' then
      let isEscaped := backslashCount % 2 = 1
      let inString2 := if isEscaped then inString else !inString
      let r := escapeScan rest inString2 0
      (c :: r.1, r.2)
    else
      let emitted :=
        if inString && c = '\n' then ['\\', 'n']
        else if inString && c = '\r' then ['\\', 'r']
        else if inString && c = '\t' then ['\\', 't']
        else [c]
      let r := escapeScan rest inString 0
      (emitted ++ r.1, r.2)

/-- Fix 1 with its recovery step: if the walk ends while still inside a
string, a closing quote is appended. -/
def fixControlChars (s : List Char) : List Char :=
  let r := escapeScan s false 0
  if r.2 then r.1 ++ ['"'] else r.1

/-- Fix 2 of `fixCommonJsonIssues`: count the four structural characters and
append enough closing braces and brackets to balance any excess of openers
(the JavaScript loop bound `openBraces - closeBraces` runs zero times when
closers are not in deficit, matching truncated `Nat` subtraction). -/
def balanceBrackets (s : List Char) : List Char :=
  let openBraces := s.count openBraceChar
  let closeBraces := s.count closeBraceChar
  let openBrackets := s.count openBracketChar
  let closeBrackets := s.count closeBracketChar
  s ++ List.replicate (openBraces - closeBraces) closeBraceChar
    ++ List.replicate (openBrackets - closeBrackets) closeBracketChar

/-- Fix 3 of `fixCommonJsonIssues`: the global replace of a comma followed
(across whitespace) by a closing brace or bracket with that closer alone;
scanning resumes after each replaced region, as JavaScript's global
`replace` does. -/
def removeTrailingCommas (l : List Char) : List Char :=
  match l with
  | [] => []
  | c :: rest =>
    if c = ',' then
      let ws := rest.takeWhile isJsWhitespace
      match h : rest.dropWhile isJsWhitespace with
      | d :: rest2 =>
        if d = closeBraceChar || d = closeBracketChar then
          ws ++ d :: removeTrailingCommas rest2
        else
          c :: removeTrailingCommas rest
      | [] => c :: removeTrailingCommas rest
    else
      c :: removeTrailingCommas rest
termination_by l.length
decreasing_by
all_goals first
| (simp only [List.length_cons]; omega)
| (have h1 : (rest.dropWhile isJsWhitespace).length ≤ rest.length :=
     (List.dropWhile_sublist isJsWhitespace (l := rest)).length_le
   have h2 : rest2.length < (List.dropWhile isJsWhitespace rest).length := by
     rw [h]; simp
   simp only [List.length_cons]; omega)

/-- `fixCommonJsonIssues` (functions/src/index.ts): probe-parse the input,
and if that fails apply trimming, control-character escaping, bracket
balancing and trailing-comma removal in order; return the patched buffer
only when it parses, otherwise the original string.  The host `JSON.parse`
is modelled by the `parses` success predicate. -/
def fixCommonJsonIssues (parses : List Char → Bool) (jsonString : List Char) : List Char :=
  if parses jsonString then jsonString
  else
    let fixed := jsTrim jsonString
    let fixed := fixControlChars fixed
    let fixed := balanceBrackets fixed
    let fixed := removeTrailingCommas fixed
    if parses fixed then fixed else jsonString

/-! ## Patch planning: Google Docs and Sheets request construction -/

/-- A primitive Google Docs `batchUpdate` request, as constructed by the
`googleDriveOperations` handler in functions/src/index.ts. -/
inductive DocsRequest
  | replaceAllText (replaceText : String) (findText : String) (matchCase : Bool)
  | insertText (index : Int) (text : String)
  | deleteContentRange (startIndex : Int) (endIndex : Int)
deriving DecidableEq

/-- The request list built by the `replace_text` operation: a single
`replaceAllText` request with `matchCase: false`, the find text defaulting
to the empty string when the parameter is absent. -/
def replaceTextRequests (findText : Option String) (replaceWithText : String) : List DocsRequest :=
  [DocsRequest.replaceAllText replaceWithText (findText.getD "") false]

/-- The complete plan for an accepted edit: `handleAcceptEdit`
(src/app/page.tsx) sends one `replace_text` operation carrying the
proposal's `findText` and `replaceText`, and the server turns it into the
request list of `replaceTextRequests`. -/
def handleAcceptEditPlan (findText replaceText : String) : List DocsRequest :=
  replaceTextRequests (some findText) replaceText

/-- The extent computation of `rewrite_document`: fold over the body content
items' optional `endIndex` fields keeping the maximum, with initial
accumulator 1; a falsy (`0`) `endIndex` is skipped by the truthiness guard,
and an absent content list yields 1. -/
def computeEndIndex (content : Option (List (Option Int))) : Int :=
  match content with
  | none => 1
  | some items =>
    items.foldl (fun mx it =>
      match it with
      | some e => if e ≠ 0 ∧ e > mx then e else mx
      | none => mx) 1

/-- The request list built by `rewrite_document` for a document of the given
extent: delete the range from index 1 to `endIndex - 1` only when
`endIndex > 2`, then always insert the new content at index 1. -/
def rewriteDocumentRequests (endIndex : Int) (newContent : String) : List DocsRequest :=
  (if endIndex > 2 then [DocsRequest.deleteContentRange 1 (endIndex - 1)] else [])
    ++ [DocsRequest.insertText 1 newContent]

/-- `rewrite_document` end to end: compute the extent from the document body,
then build the batch requests. -/
def rewriteDocumentPlan (content : Option (List (Option Int))) (newContent : String) : List DocsRequest :=
  rewriteDocumentRequests (computeEndIndex content) newContent

/-- A Google Sheets mutation call, as constructed by the
`googleDriveOperations` handler. -/
inductive SheetsRequest
  | valuesUpdate (range : String) (values : List (List String)) (valueInputOption : String)
deriving DecidableEq

/-- The `update_range` operation: the given range and values are passed
straight to `spreadsheets.values.update` with `USER_ENTERED`; the handler
performs no shape checks on `values`. -/
def updateRangeRequests (range : String) (values : List (List String)) : List SheetsRequest :=
  [SheetsRequest.valuesUpdate range values "USER_ENTERED"]

/-! ## Response post-processing pipeline (functions/src/response-processor.ts
and response-validator.ts) -/

/-- The `edit` object of an AI response, with the fields the post-processing
pipeline reads and writes; `none` models an absent field. -/
structure EditObj where
  type : Option String
  confidence : Option String
  reasoning : Option String
deriving DecidableEq

/-- An AI response as handled by the post-processing pipeline. -/
structure AIResponse where
  response : Option String
  edit : Option EditObj
deriving DecidableEq

/-- JavaScript falsiness of an optional string field: absent or empty. -/
def falsyStr : Option String → Bool
  | none => true
  | some s => s.isEmpty

/-- The result shape returned by each pipeline step. -/
structure StepResult where
  wasCorrected : Bool
  correctedResponse : Option AIResponse
  reason : Option String

/-- Step 4 of the pipeline, `finalQualityCheck`: when the response carries an
edit, a falsy `confidence` is defaulted to `high` and the function returns
immediately; only otherwise is a falsy `reasoning` defaulted to the generic
string. -/
def finalQualityCheck (r : AIResponse) : StepResult :=
  match r.edit with
  | none => { wasCorrected := false, correctedResponse := none, reason := none }
  | some e =>
    if falsyStr e.confidence then
      { wasCorrected := true
        correctedResponse := some { r with edit := some { e with confidence := some "high" } }
        reason := some "Added missing confidence level" }
    else if falsyStr e.reasoning then
      { wasCorrected := true
        correctedResponse := some { r with edit := some { e with
          reasoning := some "AI-generated response processed through quality pipeline" } }
        reason := some "Added missing reasoning" }
    else
      { wasCorrected := false, correctedResponse := none, reason := none }

/-- How `processAIResponse` adopts a step's output: the corrected response
replaces the current one exactly when the step reports a correction (every
correcting step of the source carries `correctedResponse`, so the
`Option.getD` default is never reached there). -/
def applyStep (r : AIResponse) (sr : StepResult) : AIResponse :=
  if sr.wasCorrected then sr.correctedResponse.getD r else r

/-- The JSON value that the validator's reply is parsed into. -/
structure ParsedValidation where
  isValid : Bool
  correctedResponse : Option AIResponse
  validationReason : Option String

/-- The result shape of `validateAndFixResponse`. -/
structure ValidationResult where
  isValid : Bool
  correctedResponse : Option AIResponse
  validationReason : Option String

/-- The backtick character, written via its code point. -/
def backtickChar : Char := Char.ofNat 96

/-- A code fence: three backticks. -/
def fenceChars : List Char := [backtickChar, backtickChar, backtickChar]

/-- The optional `json` tag after an opening fence. -/
def jsonTag : List Char := ['j', 's', 'o', 'n']

/-- Drop `p` from the front of `s` when it is a prefix of `s`. -/
def stripLead : List Char → List Char → Option (List Char)
  | [], s => some s
  | _ :: _, [] => none
  | a :: as, b :: bs => if a = b then stripLead as bs else none

/-- JS `String.prototype.startsWith`. -/
def startsWithChars (p s : List Char) : Bool := (stripLead p s).isSome

/-- The lazy part of the fenced-JSON regex of `parseValidationResponse`:
after the opening brace, consume inner characters one at a time (the lazy
quantifier takes the shortest extent) until a closing brace followed across
whitespace by a closing fence; returns the capture group minus its opening
brace. -/
def lazyBody : List Char → List Char → Option (List Char)
  | [], _ => none
  | c :: rest, acc =>
    if c = closeBraceChar && (stripLead fenceChars (rest.dropWhile isJsWhitespace)).isSome then
      some (acc.reverse ++ [closeBraceChar])
    else lazyBody rest (c :: acc)

/-- Attempt the fenced-JSON regex at the start of `s`: an opening fence, an
optional `json` tag, whitespace, then the captured brace group. -/
def fenceCaptureAt (s : List Char) : Option (List Char) :=
  match stripLead fenceChars s with
  | none => none
  | some r1 =>
    let r2 := (stripLead jsonTag r1).getD r1
    match r2.dropWhile isJsWhitespace with
    | c :: r4 =>
      if c = openBraceChar then (lazyBody r4 []).map (fun body => openBraceChar :: body)
      else none
    | [] => none

/-- Leftmost match of the fenced-JSON regex anywhere in the string, as
JavaScript `String.prototype.match` finds it. -/
def findFenceCapture : List Char → Option (List Char)
  | [] => none
  | c :: rest =>
    match fenceCaptureAt (c :: rest) with
    | some cap => some cap
    | none => findFenceCapture rest

/-- The anchored head replace for a reply starting with a fence and `json`
tag: drop the tag and the following whitespace run. -/
def stripJsonFenceHead (s : List Char) : List Char :=
  match stripLead (fenceChars ++ jsonTag) s with
  | some r => r.dropWhile isJsWhitespace
  | none => s

/-- The anchored head replace for a reply starting with a bare fence. -/
def stripFenceHead (s : List Char) : List Char :=
  match stripLead fenceChars s with
  | some r => r.dropWhile isJsWhitespace
  | none => s

/-- The tail replace: remove a closing fence at the very end together with
the whitespace run just before it, when present. -/
def stripFenceTail (s : List Char) : List Char :=
  match stripLead fenceChars s.reverse with
  | some r => (r.dropWhile isJsWhitespace).reverse
  | none => s

/-- The cleaning phase of `parseValidationResponse`: trim, then prefer the
captured fenced brace group; otherwise strip fence head and tail markers;
otherwise leave the reply as-is. -/
def cleanValidationResponse (response : List Char) : List Char :=
  let c := jsTrim response
  match findFenceCapture c with
  | some cap => cap
  | none =>
    if startsWithChars (fenceChars ++ jsonTag) c then stripFenceTail (stripJsonFenceHead c)
    else if startsWithChars fenceChars c then stripFenceTail (stripFenceHead c)
    else c

/-- `parseValidationResponse`: parse the cleaned reply with the host
`JSON.parse` (modelled by the `parse` parameter); a parse failure is caught
and yields an `isValid: true` result with no correction. -/
def parseValidationResponse (parse : List Char → Option ParsedValidation)
    (response : List Char) : ParsedValidation :=
  match parse (cleanValidationResponse response) with
  | some v => v
  | none =>
    { isValid := true, correctedResponse := none
      validationReason := some "Could not parse validation response" }

/-- `validateAndFixResponse`: the second-model call is modelled by its
outcome (`Except.error` when `callAIModel` rejects, in which case the
enclosing catch returns an `isValid: true` default); on a reply, the parsed
verdict is adopted only when it is invalid and carries a correction. -/
def validateAndFixResponse (parse : List Char → Option ParsedValidation)
    (call : Except Unit (List Char)) : ValidationResult :=
  match call with
  | Except.error _ =>
    { isValid := true, correctedResponse := none
      validationReason := some "Validation failed, using original response" }
  | Except.ok reply =>
    let v := parseValidationResponse parse reply
    if !v.isValid && v.correctedResponse.isSome then
      { isValid := false, correctedResponse := v.correctedResponse
        validationReason := v.validationReason }
    else
      { isValid := true, correctedResponse := none
        validationReason := some "Response validated successfully" }

/-- Step 1 of `processAIResponse`: the corrected response replaces the
original exactly when the validation result is invalid and carries a
correction. -/
def applyValidationStep (original : AIResponse) (v : ValidationResult) : AIResponse :=
  if !v.isValid && v.correctedResponse.isSome then v.correctedResponse.getD original
  else original

/-! ## Fuzzy Text Locator (src/app/page.tsx) -/

/-- Worker for JS `String.prototype.indexOf`, carrying the current index. -/
def jsIndexOfGo (sub : List Char) : List Char → Nat → Int
  | [], i => if startsWithChars sub [] then (i : Int) else -1
  | c :: rest, i =>
    if startsWithChars sub (c :: rest) then (i : Int) else jsIndexOfGo sub rest (i + 1)

/-- JS `String.prototype.indexOf`: first occurrence of `sub` in `s`, or -1. -/
def jsIndexOf (s sub : List Char) : Int := jsIndexOfGo sub s 0

/-- JS `String.prototype.includes`. -/
def includesChars : List Char → List Char → Bool
  | [], sub => startsWithChars sub []
  | s@(_ :: rest), sub => startsWithChars sub s || includesChars rest sub

/-- Worker for the global replace of whitespace runs by a single space; the
flag records whether the previous character was whitespace. -/
def collapseWsGo : Bool → List Char → List Char
  | _, [] => []
  | prevWs, c :: rest =>
    if isJsWhitespace c then
      if prevWs then collapseWsGo true rest
      else ' ' :: collapseWsGo true rest
    else c :: collapseWsGo false rest

/-- The locator's whitespace normalisation: collapse whitespace runs to a
single space, then trim. -/
def normalizeWs (s : List Char) : List Char := jsTrim (collapseWsGo false s)

/-- A match record pushed by the locator; `index` is a JS `indexOf` result
and may be -1. -/
structure MatchRec where
  paragraphIndex : Nat
  index : Int
  length : Nat
  confidence : String
deriving DecidableEq

/-- One `content.forEach` pass of the locator: apply `f` to every paragraph
with its index, collecting the pushed matches in order. -/
def scanParagraphs (f : Nat → List Char → Option MatchRec) :
    Nat → List (List Char) → List MatchRec
  | _, [] => []
  | p, t :: rest =>
    match f p t with
    | some m => m :: scanParagraphs f (p + 1) rest
    | none => scanParagraphs f (p + 1) rest

/-- JS `split(' ')` on a character list. -/
def splitOnSpace (s : List Char) : List (List Char) := s.splitOn ' '

/-- JS `join(' ')` on word lists. -/
def joinSpace (ws : List (List Char)) : List Char := List.intercalate [' '] ws

/-- Strategy 1 of the locator, applied per paragraph: exact substring
containment, offset by `indexOf`, length of the hint, confidence `high`. -/
def exactPass (findText : List Char) (p : Nat) (text : List Char) : Option MatchRec :=
  if includesChars text findText then
    some { paragraphIndex := p, index := jsIndexOf text findText
           length := findText.length, confidence := "high" }
  else none

/-- Strategy 2 of the locator, applied per paragraph: containment of the
normalised hint in the normalised paragraph, but with the offset computed
by `indexOf` of the normalised hint in the ORIGINAL paragraph text;
confidence `medium`. -/
def normalizedPass (normalizedFind : List Char) (p : Nat) (text : List Char) : Option MatchRec :=
  if includesChars (normalizeWs text) normalizedFind then
    some { paragraphIndex := p, index := jsIndexOf text normalizedFind
           length := normalizedFind.length, confidence := "medium" }
  else none

/-- Strategy 3 of the locator, applied per paragraph: exact containment of
the core text (hint with first and last word stripped); confidence
`medium`. -/
def corePass (coreText : List Char) (p : Nat) (text : List Char) : Option MatchRec :=
  if includesChars text coreText then
    some { paragraphIndex := p, index := jsIndexOf text coreText
           length := coreText.length, confidence := "medium" }
  else none

/-- `findTextWithFuzzyMatching` (src/app/page.tsx): the three escalating
strategies, each a `forEach` pass pushing onto one shared match list; a
stage returns `matches[0]` early only when the accumulated list has exactly
one entry, and at the end the first accumulated match, if any, is
returned. -/
def findTextWithFuzzyMatching (content : List (List Char)) (findText : List Char) :
    Option MatchRec :=
  let matches1 := scanParagraphs (exactPass findText) 0 content
  if matches1.length = 1 then matches1.head?
  else
    let normalizedFind := normalizeWs findText
    let matches2 := matches1 ++ scanParagraphs (normalizedPass normalizedFind) 0 content
    if matches2.length = 1 then matches2.head?
    else
      let words := splitOnSpace normalizedFind
      let matches3 :=
        if words.length > 2 then
          matches2 ++ scanParagraphs (corePass (joinSpace ((words.drop 1).dropLast))) 0 content
        else matches2
      matches3.head?

end GDrive

namespace GDrive

/-! ## Claims about the JSON Repair Engine -/

/-- C1: for every input string, `fixCommonJsonIssues` returns either a
string accepted by the parse predicate or the original input unchanged;
it never returns a modified string that still fails to parse. -/
theorem fixCommonJsonIssues_parses_or_original (parses : List Char → Bool) (s : List Char) :
    parses (fixCommonJsonIssues parses s) = true ∨ fixCommonJsonIssues parses s = s := by
  unfold fixCommonJsonIssues
  by_cases h : parses s = true
  · simp [h]
  · simp only [Bool.not_eq_true] at h
    simp only [h, Bool.false_eq_true, if_false]
    by_cases h2 : parses (removeTrailingCommas (balanceBrackets (fixControlChars (jsTrim s)))) = true
    · simp [h2]
    · simp only [Bool.not_eq_true] at h2
      simp [h2]

/-- C5: for every string that the parse predicate already accepts,
`fixCommonJsonIssues` returns it unchanged (repair is the identity on
valid input). -/
theorem fixCommonJsonIssues_noop_on_valid (parses : List Char → Bool) (s : List Char)
    (h : parses s = true) : fixCommonJsonIssues parses s = s := by
  unfold fixCommonJsonIssues
  simp [h]

/-- Witness for C5 at a concrete parse predicate and input. -/
theorem fixCommonJsonIssues_noop_on_valid_witness :
    (fun l => decide (l = [openBraceChar, closeBraceChar])) [openBraceChar, closeBraceChar] = true ∧
    fixCommonJsonIssues (fun l => decide (l = [openBraceChar, closeBraceChar]))
      [openBraceChar, closeBraceChar] = [openBraceChar, closeBraceChar] :=
  ⟨by decide, fixCommonJsonIssues_noop_on_valid _ _ (by decide)⟩

/-- C6: for every buffer missing exactly `N` closing braces and containing
no unbalanced brackets, the bracket-balancing step appends exactly `N`
closing braces — never more, never fewer. -/
theorem balanceBrackets_appends_exactly_missing (s : List Char) (N : Nat)
    (hbrace : s.count closeBraceChar + N = s.count openBraceChar)
    (hbracket : s.count openBracketChar = s.count closeBracketChar) :
    balanceBrackets s = s ++ List.replicate N closeBraceChar := by
  unfold balanceBrackets
  have h1 : s.count openBraceChar - s.count closeBraceChar = N := by omega
  have h2 : s.count openBracketChar - s.count closeBracketChar = 0 := by omega
  simp [h1, h2]

/-- Witness for C6: a single open brace gets exactly one closing brace. -/
theorem balanceBrackets_appends_exactly_missing_witness :
    ([openBraceChar].count closeBraceChar + 1 = [openBraceChar].count openBraceChar) ∧
    balanceBrackets [openBraceChar] = [openBraceChar] ++ List.replicate 1 closeBraceChar :=
  ⟨by decide, balanceBrackets_appends_exactly_missing [openBraceChar] 1 (by decide) (by decide)⟩

/-! ## Claims about the Patch Planner -/

/-- C2 counterexample: for a concrete accepted `replace` edit the emitted
plan is a single `replaceAllText` request — not a delete-range operation
followed by an insert, as the claim states (such a plan would have two
operations, the first a `deleteContentRange`). -/
theorem handleAcceptEditPlan_is_single_replaceAllText :
    handleAcceptEditPlan "foo" "bar" = [DocsRequest.replaceAllText "bar" "foo" false] ∧
    (handleAcceptEditPlan "foo" "bar").length = 1 :=
  ⟨rfl, rfl⟩

/-- C2 amended: for every accepted `replace` edit, the planner emits exactly
one `replaceAllText` request carrying the proposal's replacement and find
text with `matchCase: false`; no delete-range and no insert operation is
emitted. -/
theorem handleAcceptEditPlan_spec (f r : String) :
    handleAcceptEditPlan f r = [DocsRequest.replaceAllText r f false] := rfl

/-- C3 counterexample: an `updateRange` instruction whose values row has
length 4 against range `A1:C2` (column span 3) is not rejected — the
handler forwards the range and the mismatched values verbatim to the
spreadsheet mutation collaborator. -/
theorem updateRange_width_mismatch_passes_through :
    updateRangeRequests "A1:C2" [["a", "b", "c", "d"]] =
      [SheetsRequest.valuesUpdate "A1:C2" [["a", "b", "c", "d"]] "USER_ENTERED"] := rfl

/-- C3 amended: `update_range` performs no width validation at all — for
every range and values array, it emits exactly one pass-through
`values.update` call with the given range and values and `USER_ENTERED`. -/
theorem updateRange_passes_values_unvalidated (range : String) (values : List (List String)) :
    updateRangeRequests range values = [SheetsRequest.valuesUpdate range values "USER_ENTERED"] := rfl

/-- C4: a `rewrite` on a document of extent 1 produces exactly one insert
and zero deletes; on extent above 2 it produces exactly one delete covering
`[1, extent - 1)` followed by one insert at index 1; and every emitted
delete has a strictly positive range. -/
theorem rewriteDocumentRequests_spec (e : Int) (c : String) :
    (e = 1 → rewriteDocumentRequests e c = [DocsRequest.insertText 1 c]) ∧
    (e > 2 → rewriteDocumentRequests e c =
      [DocsRequest.deleteContentRange 1 (e - 1), DocsRequest.insertText 1 c]) ∧
    (∀ a b, DocsRequest.deleteContentRange a b ∈ rewriteDocumentRequests e c → a < b) := by
  unfold rewriteDocumentRequests
  refine ⟨fun h1 => ?_, fun h2 => ?_, fun a b hmem => ?_⟩
  · subst h1
    norm_num
  · simp [h2]
  · by_cases h2 : e > 2
    · simp only [h2, if_true, List.cons_append, List.nil_append, List.mem_cons] at hmem
      rcases hmem with h | h | h
      · cases h
        omega
      · simp at h
      · simp at h
    · simp [h2] at hmem

/-- Witness for C4 at extents 1 and 5. -/
theorem rewriteDocumentRequests_spec_witness :
    rewriteDocumentRequests 1 "X" = [DocsRequest.insertText 1 "X"] ∧
    rewriteDocumentRequests 5 "X" =
      [DocsRequest.deleteContentRange 1 4, DocsRequest.insertText 1 "X"] :=
  ⟨(rewriteDocumentRequests_spec 1 "X").1 rfl,
   (rewriteDocumentRequests_spec 5 "X").2.1 (by norm_num)⟩

/-! ## Claims about the semantic correction pipeline -/

/-- C7 counterexample: an edit missing both `confidence` and `reasoning`
leaves the final quality check with `confidence` defaulted but `reasoning`
still absent — the pass returns as soon as the confidence fix is made, so
both fields are not guaranteed present. -/
theorem finalQualityCheck_misses_reasoning :
    applyStep
      { response := some "ok"
        edit := some { type := some "replace", confidence := none, reasoning := none } }
      (finalQualityCheck
        { response := some "ok"
          edit := some { type := some "replace", confidence := none, reasoning := none } }) =
    { response := some "ok"
      edit := some { type := some "replace", confidence := some "high", reasoning := none } } := rfl

/-- C7 amended: the final quality check fills at most one missing field per
run: a falsy `confidence` is defaulted to `high` with `reasoning` left
untouched; only when `confidence` is already present is a falsy `reasoning`
defaulted to the generic string; when both are present the response passes
through unchanged. -/
theorem finalQualityCheck_fills_one_field (r : AIResponse) (e : EditObj)
    (h : r.edit = some e) :
    (falsyStr e.confidence = true →
      applyStep r (finalQualityCheck r) =
        { r with edit := some { e with confidence := some "high" } }) ∧
    (falsyStr e.confidence = false → falsyStr e.reasoning = true →
      applyStep r (finalQualityCheck r) =
        { r with edit := some { e with
          reasoning := some "AI-generated response processed through quality pipeline" } }) ∧
    (falsyStr e.confidence = false → falsyStr e.reasoning = false →
      applyStep r (finalQualityCheck r) = r) := by
  refine ⟨fun hc => ?_, fun hc hr => ?_, fun hc hr => ?_⟩ <;>
    simp [finalQualityCheck, applyStep, h, hc]
  · simp [hr]
  · simp [hr]

/-- Witness for C7 amended: an edit lacking only `confidence` gets it
defaulted to `high`. -/
theorem finalQualityCheck_fills_one_field_witness :
    applyStep
      { response := some "ok"
        edit := some { type := some "replace", confidence := none, reasoning := some "r" } }
      (finalQualityCheck
        { response := some "ok"
          edit := some { type := some "replace", confidence := none, reasoning := some "r" } }) =
    { response := some "ok"
      edit := some { type := some "replace", confidence := some "high", reasoning := some "r" } } :=
  (finalQualityCheck_fills_one_field
    { response := some "ok"
      edit := some { type := some "replace", confidence := none, reasoning := some "r" } }
    { type := some "replace", confidence := none, reasoning := some "r" } rfl).1 rfl

/-- C8: when the cross-model referee check fails internally — the
second-model call throws, or its reply does not parse — the result reports
the original instruction as valid with no corrected response, and step 1 of
`processAIResponse` passes the original response through unchanged. -/
theorem validateAndFixResponse_fails_open (parse : List Char → Option ParsedValidation)
    (call : Except Unit (List Char)) (original : AIResponse)
    (h : call = Except.error () ∨
      ∃ reply, call = Except.ok reply ∧ parse (cleanValidationResponse reply) = none) :
    (validateAndFixResponse parse call).isValid = true ∧
    (validateAndFixResponse parse call).correctedResponse = none ∧
    applyValidationStep original (validateAndFixResponse parse call) = original := by
  rcases h with h | ⟨reply, hc, hp⟩
  · subst h
    exact ⟨rfl, rfl, rfl⟩
  · subst hc
    simp [validateAndFixResponse, parseValidationResponse, hp, applyValidationStep]

/-- Witness for C8 at a concrete unparseable reply. -/
theorem validateAndFixResponse_fails_open_witness :
    (validateAndFixResponse (fun _ => none) (Except.ok ['h', 'i'])).isValid = true ∧
    (validateAndFixResponse (fun _ => none) (Except.ok ['h', 'i'])).correctedResponse = none ∧
    applyValidationStep { response := none, edit := none }
      (validateAndFixResponse (fun _ => none) (Except.ok ['h', 'i'])) =
      { response := none, edit := none } :=
  validateAndFixResponse_fails_open (fun _ => none) (Except.ok ['h', 'i'])
    { response := none, edit := none } (Or.inr ⟨['h', 'i'], rfl, rfl⟩)

/-! ## Claims about the Fuzzy Text Locator -/

/-- Dropping a matched lead accounts for the whole length. -/
theorem stripLead_length {p s r : List Char} (h : stripLead p s = some r) :
    p.length + r.length = s.length := by
  induction p generalizing s with
  | nil =>
    simp only [stripLead, Option.some.injEq] at h
    subst h
    simp
  | cons a as ih =>
    cases s with
    | nil => simp [stripLead] at h
    | cons b bs =>
      simp only [stripLead] at h
      split at h
      · have := ih h
        simp only [List.length_cons]
        omega
      · exact absurd h (by simp)

/-- A matched lead is no longer than the whole string. -/
theorem startsWithChars_length {p s : List Char} (h : startsWithChars p s = true) :
    p.length ≤ s.length := by
  unfold startsWithChars at h
  rcases Option.isSome_iff_exists.mp h with ⟨r, hr⟩
  have := stripLead_length hr
  omega

/-- A contained substring is no longer than the containing string. -/
theorem includesChars_length {s sub : List Char} (h : includesChars s sub = true) :
    sub.length ≤ s.length := by
  induction s with
  | nil =>
    simp only [includesChars] at h
    simpa using startsWithChars_length h
  | cons c rest ih =>
    simp only [includesChars, Bool.or_eq_true] at h
    rcases h with h | h
    · exact startsWithChars_length h
    · exact le_trans (ih h) (by simp)

/-- Collapsing whitespace runs never lengthens a string. -/
theorem collapseWsGo_length (b : Bool) (s : List Char) :
    (collapseWsGo b s).length ≤ s.length := by
  induction s generalizing b with
  | nil => simp [collapseWsGo]
  | cons c rest ih =>
    simp only [collapseWsGo]
    split
    · split
      · exact le_trans (ih true) (by simp)
      · simpa using Nat.succ_le_succ (ih true)
    · simpa using Nat.succ_le_succ (ih false)

/-- Trimming never lengthens a string. -/
theorem jsTrim_length (s : List Char) : (jsTrim s).length ≤ s.length := by
  unfold jsTrim
  have h1 : ∀ (l : List Char), (l.dropWhile isJsWhitespace).length ≤ l.length :=
    fun l => (List.dropWhile_sublist (l := l) isJsWhitespace).length_le
  simp only [List.length_reverse]
  exact le_trans (h1 _) (by simpa using h1 s)

/-- Whitespace normalisation never lengthens a string. -/
theorem normalizeWs_length (s : List Char) : (normalizeWs s).length ≤ s.length :=
  le_trans (jsTrim_length _) (collapseWsGo_length false s)

/-- Every match collected by a paragraph scan comes from some paragraph at
its recorded position offset. -/
theorem scanParagraphs_mem (f : Nat → List Char → Option MatchRec) (l : List (List Char)) :
    ∀ (p : Nat) (m : MatchRec), m ∈ scanParagraphs f p l →
      ∃ i t, l.get? i = some t ∧ f (p + i) t = some m := by
  induction l with
  | nil =>
    intro p m hm
    simp [scanParagraphs] at hm
  | cons t rest ih =>
    intro p m hm
    simp only [scanParagraphs] at hm
    cases hft : f p t with
    | some m0 =>
      rw [hft] at hm
      rcases List.mem_cons.mp hm with h | h
      · refine ⟨0, t, by simp, ?_⟩
        rw [Nat.add_zero, hft, h]
      · rcases ih (p + 1) m h with ⟨i, t', h1, h2⟩
        refine ⟨i + 1, t', by simpa using h1, ?_⟩
        rw [show p + (i + 1) = p + 1 + i by omega]
        exact h2
    | none =>
      rw [hft] at hm
      rcases ih (p + 1) m hm with ⟨i, t', h1, h2⟩
      refine ⟨i + 1, t', by simpa using h1, ?_⟩
      rw [show p + (i + 1) = p + 1 + i by omega]
      exact h2

/-- A match produced by the exact pass records its paragraph position and a
length bounded by that paragraph. -/
theorem exactPass_sound {findText : List Char} {p : Nat} {t : List Char} {m : MatchRec}
    (h : exactPass findText p t = some m) : m.paragraphIndex = p ∧ m.length ≤ t.length := by
  unfold exactPass at h
  split at h
  next hc =>
    injection h with h
    subst h
    exact ⟨rfl, includesChars_length hc⟩
  next => exact absurd h (by simp)

/-- A match produced by the whitespace-normalised pass records its paragraph
position and a length bounded by that paragraph. -/
theorem normalizedPass_sound {nf : List Char} {p : Nat} {t : List Char} {m : MatchRec}
    (h : normalizedPass nf p t = some m) : m.paragraphIndex = p ∧ m.length ≤ t.length := by
  unfold normalizedPass at h
  split at h
  next hc =>
    injection h with h
    subst h
    exact ⟨rfl, le_trans (includesChars_length hc) (normalizeWs_length t)⟩
  next => exact absurd h (by simp)

/-- A match produced by the core-text pass records its paragraph position
and a length bounded by that paragraph. -/
theorem corePass_sound {core : List Char} {p : Nat} {t : List Char} {m : MatchRec}
    (h : corePass core p t = some m) : m.paragraphIndex = p ∧ m.length ≤ t.length := by
  unfold corePass at h
  split at h
  next hc =>
    injection h with h
    subst h
    exact ⟨rfl, includesChars_length hc⟩
  next => exact absurd h (by simp)

/-- The head of a list, when present, is a member. -/
theorem headSomeMem {α : Type} {l : List α} {a : α} (h : l.head? = some a) : a ∈ l := by
  cases l with
  | nil => cases h
  | cons b t =>
    simp only [List.head?, Option.some.injEq] at h
    subst h
    exact List.mem_cons_self b t

/-- C9: whenever the locator returns a match, its paragraph index addresses
an actual paragraph of the sequence and the recorded match length does not
exceed that paragraph's length, under all three matching strategies. -/
theorem findTextWithFuzzyMatching_within (content : List (List Char)) (findText : List Char)
    (m : MatchRec) (h : findTextWithFuzzyMatching content findText = some m) :
    ∃ para, content.get? m.paragraphIndex = some para ∧ m.length ≤ para.length := by
  have sound1 : ∀ x ∈ scanParagraphs (exactPass findText) 0 content,
      ∃ para, content.get? x.paragraphIndex = some para ∧ x.length ≤ para.length := by
    intro x hx
    rcases scanParagraphs_mem _ _ 0 x hx with ⟨i, t, h1, h2⟩
    rcases exactPass_sound h2 with ⟨hp, hl⟩
    rw [Nat.zero_add] at hp
    exact ⟨t, by rw [hp]; exact h1, hl⟩
  have sound2 : ∀ x ∈ scanParagraphs (normalizedPass (normalizeWs findText)) 0 content,
      ∃ para, content.get? x.paragraphIndex = some para ∧ x.length ≤ para.length := by
    intro x hx
    rcases scanParagraphs_mem _ _ 0 x hx with ⟨i, t, h1, h2⟩
    rcases normalizedPass_sound h2 with ⟨hp, hl⟩
    rw [Nat.zero_add] at hp
    exact ⟨t, by rw [hp]; exact h1, hl⟩
  have sound3 : ∀ (core : List Char), ∀ x ∈ scanParagraphs (corePass core) 0 content,
      ∃ para, content.get? x.paragraphIndex = some para ∧ x.length ≤ para.length := by
    intro core x hx
    rcases scanParagraphs_mem _ _ 0 x hx with ⟨i, t, h1, h2⟩
    rcases corePass_sound h2 with ⟨hp, hl⟩
    rw [Nat.zero_add] at hp
    exact ⟨t, by rw [hp]; exact h1, hl⟩
  simp only [findTextWithFuzzyMatching] at h
  split at h
  · exact sound1 m (headSomeMem h)
  · split at h
    · rcases List.mem_append.mp (headSomeMem h) with hm | hm
      · exact sound1 m hm
      · exact sound2 m hm
    · split at h
      · rcases List.mem_append.mp (headSomeMem h) with hm | hm
        · rcases List.mem_append.mp hm with hm' | hm'
          · exact sound1 m hm'
          · exact sound2 m hm'
        · exact sound3 _ m hm
      · rcases List.mem_append.mp (headSomeMem h) with hm | hm
        · exact sound1 m hm
        · exact sound2 m hm

/-- Witness for C9 at a concrete document and hint. -/
theorem findTextWithFuzzyMatching_within_witness :
    ∃ para, (["Hello world".toList, "Goodbye".toList] : List (List Char)).get? 0 = some para ∧
      5 ≤ para.length :=
  findTextWithFuzzyMatching_within ["Hello world".toList, "Goodbye".toList] "world".toList
    { paragraphIndex := 0, index := 6, length := 5, confidence := "high" } (by decide)

/-- C10: on a paragraph and hint differing only in an internal whitespace
run, only the whitespace-normalised strategy matches, and the returned
medium-confidence match carries character offset -1, because the offset is
computed by searching the original paragraph text for the normalised
hint. -/
theorem findTextWithFuzzyMatching_ws_offset_neg_one :
    findTextWithFuzzyMatching ["Hello   world".toList] "Hello world".toList =
      some { paragraphIndex := 0, index := -1, length := 11, confidence := "medium" } := by
  decide

end GDrive
